import Mathlib

/-!
Verification development for the configflow configuration-loading library
(`configflow.go`).  The Go code is shallowly embedded: Go maps become
association lists or lookup functions, `interface{}` scalar values become the
`GoValue` inductive, fallible operations return `Except`/`Option`, and the
reflective struct walk becomes a fold over an explicit list of field
descriptors.  Machine integers are modelled as `Int` with explicit 64-bit
range checks; `float64` values are modelled as exact decimal rationals
(IEEE rounding is never observed by any statement proved here).
-/

set_option maxRecDepth 10000
set_option exponentiation.threshold 1200

namespace Configflow

/-- Loosely-typed scalar values (`interface{}` payloads that can appear in a
flattened configuration map).  `vFloat` carries the exact decimal rational a
float literal denotes.  Go additionally allows slices (and other opaque
payloads) as leaf values; the library only ever carries such values around
untouched, exactly as it does the scalars modelled here, so they are not
represented separately. -/
inductive GoValue where
  | vBool : Bool → GoValue
  | vInt : Int → GoValue
  | vFloat : Rat → GoValue
  | vStr : String → GoValue
  deriving DecidableEq, Repr

/-- Consume an optional leading sign, returning (isNegative, rest).
Mirrors the sign handling of Go `strconv` parsing. -/
def parseSign : List Char → Bool × List Char
  | '-' :: cs => (true, cs)
  | '+' :: cs => (false, cs)
  | cs => (false, cs)

/-- Numeric value of a list of decimal digit characters, most significant
first. -/
def digitsToNat (ds : List Char) : Nat :=
  ds.foldl (fun a c => a * 10 + (c.toNat - 48)) 0

/-- Quotation used in Go strconv error messages (`%q`).  Escaping of special
characters inside the string is abstracted; no statement proved here inspects
a quoted error message. -/
def goQuote (s : String) : String := "\"" ++ s ++ "\""

/-- Model of Go `strconv.ParseInt(s, 10, 64)`: optional sign, one or more
decimal digits, result within the signed 64-bit range; the two Go error cases
(invalid syntax, value out of range) are reproduced with Go's message
formats. -/
def goParseInt64E (s : String) : Except String Int :=
  let (neg, ds) := parseSign s.data
  if ds = [] then
    .error ("strconv.ParseInt: parsing " ++ goQuote s ++ ": invalid syntax")
  else if ds.all Char.isDigit then
    let n : Int := Int.ofNat (digitsToNat ds)
    let v : Int := if neg then -n else n
    if -(2 ^ 63) ≤ v ∧ v ≤ 2 ^ 63 - 1 then .ok v
    else .error ("strconv.ParseInt: parsing " ++ goQuote s ++ ": value out of range")
  else .error ("strconv.ParseInt: parsing " ++ goQuote s ++ ": invalid syntax")

/-- Success projection of `goParseInt64E`. -/
def goParseInt64 (s : String) : Option Int := (goParseInt64E s).toOption

/-- Model of Go `strconv.Atoi` (= `ParseInt(s, 10, 0)`); `int` is 64 bits wide
on the supported platforms. -/
def goAtoi (s : String) : Option Int := goParseInt64 s

/-- Model of Go `strconv.ParseBool`: exactly the twelve accepted literals. -/
def goParseBool (s : String) : Option Bool :=
  match s with
  | "1" | "t" | "T" | "TRUE" | "true" | "True" => some true
  | "0" | "f" | "F" | "FALSE" | "false" | "False" => some false
  | _ => none

/-- Take the maximal run of leading decimal digits. -/
def takeDigits : List Char → List Char × List Char
  | [] => ([], [])
  | c :: cs =>
    if c.isDigit then
      let (d, r) := takeDigits cs
      (c :: d, r)
    else ([], c :: cs)

/-- Model of Go `strconv.ParseFloat(s, 64)` restricted to finite decimal
literals: optional sign, digits with an optional fractional part (at least one
digit overall), optional decimal exponent.  The value is kept as the exact
decimal rational.  Not modelled (no claim involves them): the special forms
inf/infinity/nan, hexadecimal float literals, digit-group underscores, and
IEEE rounding; overflow/underflow to the 64-bit float range is approximated
with the thresholds 2^1024 and 2^(-1075) (Go reports a range error there,
which this model turns into parse failure exactly as `parseValue` observes
it). -/
def goParseFloat (s : String) : Option Rat :=
  let (neg, cs) := parseSign s.data
  let (ip, cs1) := takeDigits cs
  let (fp, cs2) :=
    match cs1 with
    | '.' :: rest => takeDigits rest
    | _ => ([], cs1)
  if ip = [] ∧ fp = [] then none
  else
    let mantNum : Int := Int.ofNat (digitsToNat (ip ++ fp))
    let signedNum : Int := if neg then -mantNum else mantNum
    let withExp : Option Rat :=
      match cs2 with
      | [] => some (mkRat signedNum (10 ^ fp.length))
      | 'e' :: rest | 'E' :: rest =>
        let (eneg, eds) := parseSign rest
        if eds = [] then none
        else if eds.all Char.isDigit then
          let e := digitsToNat eds
          some (if eneg then mkRat signedNum (10 ^ fp.length * 10 ^ e)
                else mkRat (signedNum * (10 ^ e : Nat)) (10 ^ fp.length))
        else none
      | _ => none
    match withExp with
    | none => none
    | some q =>
      if q.den * 2 ^ 1024 ≤ q.num.natAbs then none
      else if q.num ≠ 0 ∧ q.num.natAbs * 2 ^ 1075 < q.den then none
      else some q

/-- Model of `parseValue` (configflow.go): try boolean, then signed 64-bit
integer, then 64-bit float, falling back to the original string. -/
def parseValue (s : String) : GoValue :=
  match goParseBool s with
  | some b => .vBool b
  | none =>
    match goParseInt64 s with
    | some i => .vInt i
    | none =>
      match goParseFloat s with
      | some f => .vFloat f
      | none => .vStr s

/-- C7: parseValue tries boolean, then signed 64-bit integer, then 64-bit
float, in that fixed order, returning the first successful parse and otherwise
the original string; in particular "true" yields boolean true, "42" yields
integer 42, "3.14" yields float 3.14, and "hello" yields the string
"hello". -/
theorem parseValue_fixed_order :
    (∀ s b, goParseBool s = some b → parseValue s = .vBool b) ∧
    (∀ s i, goParseBool s = none → goParseInt64 s = some i → parseValue s = .vInt i) ∧
    (∀ s f, goParseBool s = none → goParseInt64 s = none → goParseFloat s = some f →
      parseValue s = .vFloat f) ∧
    (∀ s, goParseBool s = none → goParseInt64 s = none → goParseFloat s = none →
      parseValue s = .vStr s) ∧
    parseValue "true" = .vBool true ∧
    parseValue "42" = .vInt 42 ∧
    parseValue "3.14" = .vFloat (mkRat 314 100) ∧
    parseValue "hello" = .vStr "hello" := by
  refine ⟨?_, ?_, ?_, ?_, by decide, by decide, by decide, by decide⟩
  · intro s b hb
    simp [parseValue, hb]
  · intro s i hb hi
    simp [parseValue, hb, hi]
  · intro s f hb hi hf
    simp [parseValue, hb, hi, hf]
  · intro s hb hi hf
    simp [parseValue, hb, hi, hf]

/-- Witness for C7: the conditional clauses of parseValue_fixed_order applied
at concrete inputs. -/
theorem parseValue_fixed_order_witness :
    parseValue "t" = .vBool true ∧ parseValue "-7" = .vInt (-7) ∧
    parseValue "2.5" = .vFloat (mkRat 25 10) ∧ parseValue "1.2.3" = .vStr "1.2.3" :=
  ⟨parseValue_fixed_order.1 "t" true (by decide),
   parseValue_fixed_order.2.1 "-7" (-7) (by decide) (by decide),
   parseValue_fixed_order.2.2.1 "2.5" (mkRat 25 10) (by decide) (by decide) (by decide),
   parseValue_fixed_order.2.2.2.1 "1.2.3" (by decide) (by decide) (by decide)⟩

/-- Nested configuration values: a leaf scalar (`interface{}` that is not a
map) or a nested mapping (`map[string]interface{}`), modelled as an
association list.  Go maps cannot hold duplicate keys; inputs fed to the
flattening theorems come from Go maps and therefore have pairwise-distinct
keys at every level, but the definitions are total on all lists. -/
inductive NestedVal where
  | leaf : GoValue → NestedVal
  | node : List (String × NestedVal) → NestedVal
  deriving Repr

abbrev NestedMap := List (String × NestedVal)

/-- Insertion `m[k] = v` into a Go map modelled as an association list:
overwrite in place when the key is present, append otherwise. -/
def mapPut (m : NestedMap) (k : String) (v : NestedVal) : NestedMap :=
  if m.any (fun p => p.1 == k) then
    m.map (fun p => if p.1 == k then (k, v) else p)
  else m ++ [(k, v)]

/-- Sequential insertion of every entry of src into dst, modelling
the copying loops of `flattenMap` (`result[nk] = nv` / `result[key] = v`). -/
def mapPutAll (dst src : NestedMap) : NestedMap :=
  src.foldl (fun d p => mapPut d p.1 p.2) dst

/-- Model of `flattenMap` (configflow.go): walk the entries of the mapping in
iteration order; a nested mapping contributes its own flattening under the
extended key, a non-mapping value contributes itself under the joined key; all
contributions are inserted into one result map.  Inserting the recursively
flattened (hence already key-deduplicated) sub-result entry by entry coincides
with Go's insertion of the same entries. -/
def flattenMap : NestedMap → String → NestedMap
  | [], _ => []
  | (k, v) :: rest, pre =>
    let key := if pre = "" then k else pre ++ "." ++ k
    let entries :=
      match v with
      | .node nested => flattenMap nested key
      | .leaf x => [(key, .leaf x)]
    mapPutAll entries (flattenMap rest pre)

/-- Dot-joining of a key path, as the spec describes flattened keys. -/
def dotJoin : List String → String
  | [] => ""
  | [k] => k
  | k :: rest => k ++ "." ++ dotJoin rest

/-- Dot-join a root-to-leaf path under an optional prefix (prefixed when the
prefix is nonempty). -/
def joinUnder (pre : String) (path : List String) : String :=
  if pre = "" then dotJoin path else pre ++ "." ++ dotJoin path

/-- All root-to-leaf paths of a nested mapping together with the leaf value at
the end of each path, in iteration order. -/
def leafPaths : NestedMap → List (List String × GoValue)
  | [] => []
  | (k, .leaf x) :: rest => ([k], x) :: leafPaths rest
  | (k, .node n) :: rest =>
    (leafPaths n).map (fun p => (k :: p.1, p.2)) ++ leafPaths rest

/-- Recursively, every key of the nested mapping is nonempty. -/
def keysNonempty : NestedMap → Bool
  | [] => true
  | (k, .leaf _) :: rest => (!(k == "")) && keysNonempty rest
  | (k, .node n) :: rest => (!(k == "")) && keysNonempty n && keysNonempty rest

/-- Every value of the mapping is a leaf (the mapping is flat). -/
def isFlat : NestedMap → Bool
  | [] => true
  | (_, .leaf _) :: rest => isFlat rest
  | (_, .node _) :: _ => false

/-- The keys of an association-list map. -/
abbrev mapKeys (m : NestedMap) : List String := m.map Prod.fst

theorem flattenMap_nil (pre : String) : flattenMap [] pre = [] := by
  simp [flattenMap]

theorem flattenMap_cons_leaf (k : String) (x : GoValue) (rest : NestedMap) (pre : String) :
    flattenMap ((k, .leaf x) :: rest) pre =
      mapPutAll [((if pre = "" then k else pre ++ "." ++ k), .leaf x)] (flattenMap rest pre) := by
  simp [flattenMap]

theorem flattenMap_cons_node (k : String) (n rest : NestedMap) (pre : String) :
    flattenMap ((k, .node n) :: rest) pre =
      mapPutAll (flattenMap n (if pre = "" then k else pre ++ "." ++ k)) (flattenMap rest pre) := by
  simp [flattenMap]

theorem mapPut_of_not_mem (m : NestedMap) (k : String) (v : NestedVal)
    (h : ∀ p ∈ m, ¬ p.1 = k) : mapPut m k v = m ++ [(k, v)] := by
  have hfalse : m.any (fun p => p.1 == k) = false := by
    rw [List.any_eq_false]
    intro p hp
    simpa using h p hp
  simp [mapPut, hfalse]

theorem mem_mapPut {m : NestedMap} {k : String} {v : NestedVal} {p : String × NestedVal}
    (hp : p ∈ mapPut m k v) : p = (k, v) ∨ p ∈ m := by
  unfold mapPut at hp
  split at hp
  · rcases List.mem_map.mp hp with ⟨q, hq, hpe⟩
    by_cases hb : (q.1 == k) = true
    · rw [if_pos hb] at hpe
      exact Or.inl hpe.symm
    · rw [if_neg hb] at hpe
      exact Or.inr (hpe ▸ hq)
  · rcases List.mem_append.mp hp with h | h
    · exact Or.inr h
    · exact Or.inl (by simpa using h)

theorem mapPutAll_of_disjoint (src : NestedMap) : ∀ dst : NestedMap,
    (∀ p ∈ src, ∀ q ∈ dst, ¬ q.1 = p.1) → (src.map Prod.fst).Nodup →
    mapPutAll dst src = dst ++ src := by
  induction src with
  | nil =>
    intro dst _ _
    simp [mapPutAll]
  | cons p tl ih =>
    intro dst hdisj hnodup
    have h1 : ∀ q ∈ dst, ¬ q.1 = p.1 := fun q hq => hdisj p (by simp) q hq
    have hput : mapPut dst p.1 p.2 = dst ++ [p] := mapPut_of_not_mem dst p.1 p.2 h1
    have hnodup2 : (p.1 :: tl.map Prod.fst).Nodup := by
      simpa only [List.map_cons] using hnodup
    have hnodup' := List.nodup_cons.mp hnodup2
    have hd2 : ∀ r ∈ tl, ∀ q ∈ dst ++ [p], ¬ q.1 = r.1 := by
      intro r hr q hq
      rcases List.mem_append.mp hq with hq | hq
      · exact hdisj r (List.mem_cons_of_mem _ hr) q hq
      · have hqp : q = p := by simpa using hq
        subst hqp
        intro hqr
        exact hnodup'.1 (hqr ▸ List.mem_map_of_mem Prod.fst hr)
    have step : mapPutAll dst (p :: tl) = mapPutAll (mapPut dst p.1 p.2) tl := rfl
    rw [step, hput, ih (dst ++ [p]) hd2 hnodup'.2]
    simp

theorem isFlat_iff (m : NestedMap) :
    isFlat m = true ↔ ∀ p ∈ m, ∃ x, p.2 = NestedVal.leaf x := by
  induction m with
  | nil => simp [isFlat]
  | cons p rest ih =>
    obtain ⟨k, v⟩ := p
    cases v with
    | leaf x =>
      simp only [isFlat, ih, List.mem_cons]
      constructor
      · intro h q hq
        rcases hq with rfl | hq
        · exact ⟨x, rfl⟩
        · exact h q hq
      · intro h q hq
        exact h q (Or.inr hq)
    | node n =>
      simp only [isFlat]
      constructor
      · intro h
        cases h
      · intro h
        rcases h (k, .node n) (by simp) with ⟨x, hx⟩
        cases hx

theorem isFlat_mapPut {m : NestedMap} {k : String} {x : GoValue}
    (h : isFlat m = true) : isFlat (mapPut m k (.leaf x)) = true := by
  rw [isFlat_iff] at h ⊢
  intro p hp
  rcases mem_mapPut hp with rfl | hp'
  · exact ⟨x, rfl⟩
  · exact h p hp'

theorem isFlat_mapPutAll (src : NestedMap) : ∀ dst : NestedMap,
    isFlat dst = true → isFlat src = true → isFlat (mapPutAll dst src) = true := by
  induction src with
  | nil =>
    intro dst hd _
    simpa [mapPutAll] using hd
  | cons p tl ih =>
    intro dst hd hs
    obtain ⟨k, v⟩ := p
    rcases (isFlat_iff _).mp hs (k, v) (by simp) with ⟨x, hx⟩
    cases hx
    have htl : isFlat tl = true := hs
    have step : mapPutAll dst ((k, .leaf x) :: tl) = mapPutAll (mapPut dst k (.leaf x)) tl := rfl
    rw [step]
    exact ih _ (isFlat_mapPut hd) htl

theorem isFlat_flattenMap : ∀ (m : NestedMap) (pre : String),
    isFlat (flattenMap m pre) = true
  | [], pre => by rw [flattenMap_nil]; rfl
  | (k, .leaf x) :: rest, pre => by
    have h1 := isFlat_flattenMap rest pre
    rw [flattenMap_cons_leaf]
    exact isFlat_mapPutAll _ _ rfl h1
  | (k, .node n) :: rest, pre => by
    have h1 := isFlat_flattenMap rest pre
    have h2 := isFlat_flattenMap n (if pre = "" then k else pre ++ "." ++ k)
    rw [flattenMap_cons_node]
    exact isFlat_mapPutAll _ _ h2 h1

theorem mapKeys_mapPut_of_mem {m : NestedMap} {k : String} (v : NestedVal)
    (h : m.any (fun p => p.1 == k) = true) :
    mapKeys (mapPut m k v) = mapKeys m := by
  simp only [mapPut, h, if_true, mapKeys, List.map_map]
  apply List.map_congr_left
  intro p _
  by_cases hb : (p.1 == k) = true
  · simp only [Function.comp_apply, if_pos hb]
    exact (beq_iff_eq.mp hb).symm
  · simp only [Function.comp_apply, if_neg hb]

theorem nodup_mapKeys_mapPut {m : NestedMap} {k : String} (v : NestedVal)
    (h : (mapKeys m).Nodup) : (mapKeys (mapPut m k v)).Nodup := by
  by_cases hc : m.any (fun p => p.1 == k) = true
  · rw [mapKeys_mapPut_of_mem v hc]
    exact h
  · have hnm : ∀ p ∈ m, ¬ p.1 = k := by
      rw [Bool.not_eq_true, List.any_eq_false] at hc
      intro p hp
      simpa using hc p hp
    rw [mapPut_of_not_mem m k v hnm]
    have hk : k ∉ mapKeys m := by
      intro hmem
      rcases List.mem_map.mp hmem with ⟨p, hp, hpk⟩
      exact hnm p hp hpk
    have hkeys : mapKeys (m ++ [(k, v)]) = mapKeys m ++ [k] := by
      simp [mapKeys]
    rw [hkeys]
    refine List.Nodup.append h (List.nodup_singleton k) ?_
    intro a ha hb
    have hak : a = k := by simpa using hb
    subst hak
    exact hk ha

theorem nodup_mapKeys_mapPutAll (src : NestedMap) : ∀ dst : NestedMap,
    (mapKeys dst).Nodup → (mapKeys (mapPutAll dst src)).Nodup := by
  induction src with
  | nil =>
    intro dst hd
    simpa [mapPutAll] using hd
  | cons p tl ih =>
    intro dst hd
    have step : mapPutAll dst (p :: tl) = mapPutAll (mapPut dst p.1 p.2) tl := rfl
    rw [step]
    exact ih _ (nodup_mapKeys_mapPut p.2 hd)

theorem nodup_mapKeys_flattenMap : ∀ (m : NestedMap) (pre : String),
    (mapKeys (flattenMap m pre)).Nodup
  | [], pre => by rw [flattenMap_nil]; exact List.nodup_nil
  | (k, .leaf x) :: rest, pre => by
    rw [flattenMap_cons_leaf]
    exact nodup_mapKeys_mapPutAll _ _ (List.nodup_singleton _)
  | (k, .node n) :: rest, pre => by
    have h2 := nodup_mapKeys_flattenMap n (if pre = "" then k else pre ++ "." ++ k)
    rw [flattenMap_cons_node]
    exact nodup_mapKeys_mapPutAll _ _ h2

theorem flattenMap_of_flat : ∀ l : NestedMap,
    isFlat l = true → (mapKeys l).Nodup → flattenMap l "" = l
  | [], _, _ => flattenMap_nil ""
  | (k, v) :: rest, hflat, hnodup => by
    rcases (isFlat_iff _).mp hflat (k, v) (by simp) with ⟨x, hx⟩
    cases hx
    have htl : isFlat rest = true := hflat
    have hnodup2 : (k :: rest.map Prod.fst).Nodup := by
      simpa only [List.map_cons] using hnodup
    have hnodup' : (mapKeys rest).Nodup := (List.nodup_cons.mp hnodup2).2
    have hknotin : k ∉ mapKeys rest := (List.nodup_cons.mp hnodup2).1
    have hrest := flattenMap_of_flat rest htl hnodup'
    have hkey : (if ("" : String) = "" then k else "" ++ "." ++ k) = k := by simp
    rw [flattenMap_cons_leaf, hkey, hrest,
      mapPutAll_of_disjoint rest [(k, .leaf x)] ?_ hnodup']
    · simp
    · intro p hp q hq
      have hq' : q = (k, NestedVal.leaf x) := by simpa using hq
      subst hq'
      intro hkp
      have hmem : p.1 ∈ mapKeys rest := List.mem_map_of_mem Prod.fst hp
      have hkp' : k = p.1 := hkp
      subst hkp'
      exact hknotin hmem

/-- C6: flattening is idempotent — re-flattening the output of
flattenMap(M, "") with the empty prefix returns that output unchanged. -/
theorem flattenMap_idempotent (m : NestedMap) :
    flattenMap (flattenMap m "") "" = flattenMap m "" :=
  flattenMap_of_flat (flattenMap m "") (isFlat_flattenMap m "") (nodup_mapKeys_flattenMap m "")

theorem string_append_ne_empty (a b : String) (ha : a ≠ "") : a ++ b ≠ "" := by
  intro h
  apply ha
  have h2 : a.data ++ b.data = [] := by
    simpa using congrArg String.data h
  exact String.ext (by simpa using (List.append_eq_nil.mp h2).1)

theorem dotJoin_cons (k : String) (path : List String) (h : path ≠ []) :
    dotJoin (k :: path) = k ++ "." ++ dotJoin path := by
  cases path with
  | nil => exact absurd rfl h
  | cons a tl =>
    cases tl with
    | nil => rfl
    | cons b tl2 => rfl

theorem joinUnder_cons (pre k : String) (path : List String)
    (hpath : path ≠ []) (hk : ¬(pre = "" ∧ k = "")) :
    joinUnder pre (k :: path) = joinUnder (if pre = "" then k else pre ++ "." ++ k) path := by
  by_cases hpre : pre = ""
  · subst hpre
    have hkne : k ≠ "" := fun hke => hk ⟨rfl, hke⟩
    rw [if_pos rfl]
    unfold joinUnder
    rw [if_pos rfl, if_neg hkne, dotJoin_cons k path hpath]
  · rw [if_neg hpre]
    unfold joinUnder
    have hne : pre ++ "." ++ k ≠ "" :=
      string_append_ne_empty _ _ (string_append_ne_empty _ _ hpre)
    rw [if_neg hpre, if_neg hne, dotJoin_cons k path hpath]
    simp [String.append_assoc]

theorem leafPaths_nil : leafPaths [] = [] := by
  simp [leafPaths]

theorem leafPaths_cons_leaf (k : String) (x : GoValue) (rest : NestedMap) :
    leafPaths ((k, .leaf x) :: rest) = ([k], x) :: leafPaths rest := by
  simp [leafPaths]

theorem leafPaths_cons_node (k : String) (n rest : NestedMap) :
    leafPaths ((k, .node n) :: rest) =
      (leafPaths n).map (fun p => (k :: p.1, p.2)) ++ leafPaths rest := by
  simp [leafPaths]

theorem leafPaths_fst_ne_nil : ∀ (m : NestedMap), ∀ p ∈ leafPaths m, p.1 ≠ []
  | [] => by simp [leafPaths_nil]
  | (k, .leaf x) :: rest => by
    intro p hp
    rw [leafPaths_cons_leaf] at hp
    rcases List.mem_cons.mp hp with rfl | hp
    · simp
    · exact leafPaths_fst_ne_nil rest p hp
  | (k, .node n) :: rest => by
    intro p hp
    rw [leafPaths_cons_node] at hp
    rcases List.mem_append.mp hp with hp | hp
    · rcases List.mem_map.mp hp with ⟨q, _, rfl⟩
      simp
    · exact leafPaths_fst_ne_nil rest p hp

theorem keysNonempty_cons_leaf (k : String) (x : GoValue) (rest : NestedMap) :
    keysNonempty ((k, .leaf x) :: rest) = true ↔ ¬ k = "" ∧ keysNonempty rest = true := by
  simp [keysNonempty]

theorem keysNonempty_cons_node (k : String) (n rest : NestedMap) :
    keysNonempty ((k, .node n) :: rest) = true ↔
      ¬ k = "" ∧ keysNonempty n = true ∧ keysNonempty rest = true := by
  simp [keysNonempty, and_assoc]

/-- C5 (amended): for a nested mapping whose keys are all nonempty and whose
dot-joined root-to-leaf paths are pairwise distinct, flattenMap produces
exactly the association list pairing each (prefixed) dot-joined root-to-leaf
path with the untouched leaf value at its end; in particular on the empty
mapping it returns the empty mapping. -/
theorem flattenMap_eq_leafPaths : ∀ (m : NestedMap) (pre : String),
    keysNonempty m = true →
    ((leafPaths m).map (fun p => joinUnder pre p.1)).Nodup →
    flattenMap m pre = (leafPaths m).map (fun p => (joinUnder pre p.1, NestedVal.leaf p.2))
  | [], pre, _, _ => by rw [flattenMap_nil, leafPaths_nil]; rfl
  | (k, .leaf x) :: rest, pre, hne, hnd => by
    rw [keysNonempty_cons_leaf] at hne
    rw [leafPaths_cons_leaf] at hnd ⊢
    rw [List.map_cons] at hnd
    have hhead := (List.nodup_cons.mp hnd).1
    have hndr := (List.nodup_cons.mp hnd).2
    have hrest := flattenMap_eq_leafPaths rest pre hne.2 hndr
    have hkey : joinUnder pre ([k] : List String) = (if pre = "" then k else pre ++ "." ++ k) := rfl
    rw [flattenMap_cons_leaf, hrest, ← hkey,
      mapPutAll_of_disjoint _ _ ?_ ?_]
    · rw [List.map_cons]
      rfl
    · intro p hp q hq
      have hq' : q = (joinUnder pre ([k] : List String), NestedVal.leaf x) := by simpa using hq
      subst hq'
      rcases List.mem_map.mp hp with ⟨r, hr, rfl⟩
      intro he
      have hmem : joinUnder pre r.1 ∈ (leafPaths rest).map (fun p => joinUnder pre p.1) :=
        List.mem_map_of_mem (fun p => joinUnder pre p.1) hr
      have he' : joinUnder pre ([k] : List String) = joinUnder pre r.1 := he
      rw [← he'] at hmem
      exact hhead hmem
    · rw [List.map_map]
      simpa [Function.comp] using hndr
  | (k, .node n) :: rest, pre, hne, hnd => by
    rw [keysNonempty_cons_node] at hne
    obtain ⟨hk, hnn, hner⟩ := hne
    rw [leafPaths_cons_node] at hnd ⊢
    rw [List.map_append, List.map_map] at hnd
    have hcong : ∀ p ∈ leafPaths n,
        joinUnder pre (k :: p.1) = joinUnder (if pre = "" then k else pre ++ "." ++ k) p.1 :=
      fun p hp => joinUnder_cons pre k p.1 (leafPaths_fst_ne_nil n p hp) (fun hc => hk hc.2)
    have hmapeq : (leafPaths n).map ((fun p => joinUnder pre p.1) ∘ (fun p => (k :: p.1, p.2)))
        = (leafPaths n).map (fun p => joinUnder (if pre = "" then k else pre ++ "." ++ k) p.1) := by
      apply List.map_congr_left
      intro p hp
      simpa using hcong p hp
    rw [hmapeq] at hnd
    rcases List.nodup_append.mp hnd with ⟨hnd1, hnd2, hdisj⟩
    have ihn := flattenMap_eq_leafPaths n (if pre = "" then k else pre ++ "." ++ k) hnn hnd1
    have ihr := flattenMap_eq_leafPaths rest pre hner hnd2
    rw [flattenMap_cons_node, ihn, ihr, mapPutAll_of_disjoint _ _ ?_ ?_]
    · rw [List.map_append, List.map_map]
      congr 1
      apply List.map_congr_left
      intro p hp
      simp only [Function.comp_apply]
      rw [← hcong p hp]
    · intro p hp q hq
      rcases List.mem_map.mp hp with ⟨r, hr, rfl⟩
      rcases List.mem_map.mp hq with ⟨s, hs, rfl⟩
      intro he
      have h1 : joinUnder (if pre = "" then k else pre ++ "." ++ k) s.1 ∈
          (leafPaths n).map (fun p => joinUnder (if pre = "" then k else pre ++ "." ++ k) p.1) :=
        List.mem_map_of_mem _ hs
      apply hdisj h1
      have he' : joinUnder (if pre = "" then k else pre ++ "." ++ k) s.1 = joinUnder pre r.1 := he
      rw [he']
      exact List.mem_map_of_mem _ hr
    · rw [List.map_map]
      simpa [Function.comp] using hnd2

/-- C5 counterexample: the claim fails as stated.  First input: the mapping
with the single empty key "" holding the nested mapping with key "x" — the
flattened key is "x" but the dot-joined root-to-leaf path is ".x".  Second
input: the two dot-paths "a.b" collide, so the leaf value 1 is overwritten
rather than copied as-is. -/
theorem flattenMap_paths_counterexample :
    (flattenMap [("", .node [("x", .leaf (.vInt 1))])] "").map Prod.fst = ["x"] ∧
    (leafPaths [("", .node [("x", .leaf (.vInt 1))])]).map (fun p => joinUnder "" p.1)
      = [".x"] ∧
    ("x" : String) ≠ ".x" ∧
    flattenMap [("a.b", .leaf (.vInt 1)), ("a", .node [("b", .leaf (.vInt 2))])] ""
      = [("a.b", .leaf (.vInt 2))] ∧
    (["a.b"], GoValue.vInt 1) ∈
      leafPaths [("a.b", .leaf (.vInt 1)), ("a", .node [("b", .leaf (.vInt 2))])] := by
  refine ⟨?_, ?_, by decide, ?_, ?_⟩
  · simp [flattenMap, mapPutAll, mapPut, List.foldl]
  · simp [leafPaths, joinUnder, dotJoin]
  · simp [flattenMap, mapPutAll, mapPut, List.foldl]
  · simp [leafPaths]

/-- Witness for C5 (amended): a concrete two-level mapping flattened with the
empty prefix, with the hypotheses discharged by evaluation. -/
theorem flattenMap_eq_leafPaths_witness :
    flattenMap [("app", .node [("name", .leaf (.vStr "TestApp"))]), ("port", .leaf (.vInt 3000))] ""
      = [("app.name", .leaf (.vStr "TestApp")), ("port", .leaf (.vInt 3000))] := by
  rw [flattenMap_eq_leafPaths
    [("app", .node [("name", .leaf (.vStr "TestApp"))]), ("port", .leaf (.vInt 3000))] ""
    (by simp [keysNonempty]) (by simp [leafPaths, joinUnder, dotJoin])]
  simp [leafPaths, joinUnder, dotJoin]

/-- A flattened configuration map as produced by a Source's Load. -/
abbrev FlatMap := List (String × GoValue)

/-- The merged namespace, read through Go map lookup. -/
abbrev Data := String → Option GoValue

/-- The ValidationError value type of configflow.go. -/
structure ValidationError where
  field : String
  value : GoValue
  rule : String
  message : String
  deriving DecidableEq, Repr

/-- Errors surfaced by Load: either a plain (possibly wrapped) error message
or a structured ValidationError, matching the two error shapes the library
returns. -/
inductive GoErr where
  | plain : String → GoErr
  | valErr : ValidationError → GoErr
  deriving DecidableEq, Repr

/-- A registered configuration source, abstracted to the capability set the
Loader consumes: the (single) result of calling Load() and the declared
Priority().  MapSource, EnvSource and FileSource are all instances of this
shape. -/
structure Source where
  load : Except String FlatMap
  priority : Int

/-- Go map lookup on an association list built by iterating the list and
overwriting on equal keys: the last binding of a key wins.  For lists coming
from Go maps keys are unique and this is ordinary lookup. -/
def lookupLast (m : FlatMap) (k : String) : Option GoValue :=
  m.foldl (fun acc p => if p.1 == k then some p.2 else acc) none

/-- The empty accumulator `merged := make(map[string]interface{})`. -/
def emptyData : Data := fun _ => none

/-- Extensional model of `mergeMaps(dst, src)` (configflow.go): every key of
src overwrites dst, other keys keep their dst value. -/
def mergeMaps (dst : Data) (src : FlatMap) : Data :=
  fun k =>
    match lookupLast src k with
    | some v => some v
    | none => dst k

/-- The source-merging loop of `Loader.Load`: iterate the registered sources
in registration order; a failing Load() aborts with the wrapped error;
otherwise fold the flat map into the accumulator. -/
def loadMergeAux : List Source → Data → Except GoErr Data
  | [], acc => .ok acc
  | s :: rest, acc =>
    match s.load with
    | .error e => .error (.plain ("failed to load from source: " ++ e))
    | .ok data => loadMergeAux rest (mergeMaps acc data)

/-- Merging phase of `Loader.Load`, starting from the empty map. -/
def loadMerge (srcs : List Source) : Except GoErr Data :=
  loadMergeAux srcs emptyData

theorem findSome?_append {α β : Type} (l1 l2 : List α) (f : α → Option β) :
    (l1 ++ l2).findSome? f =
      match l1.findSome? f with
      | some b => some b
      | none => l2.findSome? f := by
  induction l1 with
  | nil => simp [List.findSome?]
  | cons a tl ih =>
    cases hfa : f a <;> simp [List.findSome?_cons, hfa, ih]

theorem loadMergeAux_ok : ∀ (srcs : List Source) (flats : List FlatMap) (acc : Data),
    srcs.map Source.load = flats.map Except.ok →
    loadMergeAux srcs acc = .ok (fun k =>
      match flats.reverse.findSome? (fun f => lookupLast f k) with
      | some v => some v
      | none => acc k) := by
  intro srcs
  induction srcs with
  | nil =>
    intro flats acc h
    cases flats with
    | nil => simp [loadMergeAux, List.findSome?]
    | cons f fs => simp at h
  | cons s tl ih =>
    intro flats acc h
    cases flats with
    | nil => simp at h
    | cons f fs =>
      simp only [List.map_cons, List.cons.injEq] at h
      have step : loadMergeAux (s :: tl) acc =
          match s.load with
          | .error e => .error (.plain ("failed to load from source: " ++ e))
          | .ok data => loadMergeAux tl (mergeMaps acc data) := rfl
      rw [step, h.1]
      show loadMergeAux tl (mergeMaps acc f) = _
      rw [ih fs (mergeMaps acc f) h.2]
      congr 1
      funext k
      rw [List.reverse_cons, findSome?_append]
      cases h1 : fs.reverse.findSome? (fun m => lookupLast m k) with
      | some v => rfl
      | none =>
        simp only [List.findSome?_cons, List.findSome?_nil, mergeMaps]
        cases h2 : lookupLast f k <;> rfl

theorem loadMergeAux_load_eq : ∀ (srcs srcs' : List Source) (acc : Data),
    srcs.map Source.load = srcs'.map Source.load →
    loadMergeAux srcs acc = loadMergeAux srcs' acc := by
  intro srcs
  induction srcs with
  | nil =>
    intro srcs' acc h
    cases srcs' with
    | nil => rfl
    | cons s' tl' => simp at h
  | cons s tl ih =>
    intro srcs' acc h
    cases srcs' with
    | nil => simp at h
    | cons s' tl' =>
      simp only [List.map_cons, List.cons.injEq] at h
      cases hl : s'.load with
      | error e => simp [loadMergeAux, h.1, hl]
      | ok d => simp [loadMergeAux, h.1, hl, ih tl' _ h.2]

/-- C1: when every registered source loads successfully, the merged namespace
maps each key to the value of the last source (in registration order) whose
flattened output contains that key, and the declared Priority() values have
no effect: any two source lists with the same Load() results merge
identically, whatever their priorities. -/
theorem loadMerge_registration_order :
    (∀ (srcs : List Source) (flats : List FlatMap),
      srcs.map Source.load = flats.map Except.ok →
      loadMerge srcs = .ok (fun k => flats.reverse.findSome? (fun f => lookupLast f k))) ∧
    (∀ srcs srcs' : List Source, srcs.map Source.load = srcs'.map Source.load →
      loadMerge srcs = loadMerge srcs') := by
  constructor
  · intro srcs flats h
    rw [loadMerge, loadMergeAux_ok srcs flats emptyData h]
    congr 1
    funext k
    cases h1 : flats.reverse.findSome? (fun f => lookupLast f k) <;> simp [h1, emptyData]
  · intro srcs srcs' h
    exact loadMergeAux_load_eq srcs srcs' emptyData h

/-- Witness for C1: two sources both binding key "k"; the later-registered
source wins even though its declared priority (3) is lower than the earlier
one's (5). -/
theorem loadMerge_registration_order_witness :
    loadMerge [⟨.ok [("k", .vInt 1)], 5⟩, ⟨.ok [("k", .vInt 2)], 3⟩] =
      .ok (fun key => (([[("k", GoValue.vInt 1)], [("k", GoValue.vInt 2)]] : List FlatMap)).reverse.findSome?
        (fun f => lookupLast f key)) ∧
    (([[("k", GoValue.vInt 1)], [("k", GoValue.vInt 2)]] : List FlatMap)).reverse.findSome?
        (fun f => lookupLast f "k") = some (GoValue.vInt 2) :=
  ⟨loadMerge_registration_order.1 _ _ rfl, by decide⟩

/-- The per-field metadata record read from struct tags (`fieldConfig` in
configflow.go). -/
structure fieldConfig where
  cfgKey : String
  envKey : String
  validate : String
  defaultValue : String
  deriving DecidableEq, Repr

/-- Model of Go `strings.ToLower`, restricted to ASCII case mapping (every
key appearing in this development is ASCII; full Unicode case folding is
abstracted). -/
def goToLower (s : String) : String := String.mk (s.data.map Char.toLower)

/-- Model of `Loader.findValue` (configflow.go): if an env tag is declared,
look up the lowercased env tag in the merged namespace and return a hit;
otherwise (or on a miss) look up the cfg tag verbatim; otherwise nothing. -/
def findValue (data : Data) (cfg : fieldConfig) : Option GoValue :=
  let fromEnv : Option GoValue :=
    if cfg.envKey ≠ "" then data (goToLower cfg.envKey) else none
  match fromEnv with
  | some value => some value
  | none => if cfg.cfgKey ≠ "" then data cfg.cfgKey else none

theorem goToLower_eq_empty (s : String) : goToLower s = "" ↔ s = "" := by
  constructor
  · intro h
    have h2 : s.data.map Char.toLower = [] := congrArg String.data h
    exact String.ext (by simpa using List.map_eq_nil_iff.mp h2)
  · intro h
    subst h
    rfl

/-- C3 counterexample: the declared env-key "APP_PORT" is present verbatim
(hence in particular case-insensitively) in the merged namespace, yet value
resolution does not use it: the lookup is performed only on the lowercase
form "app_port", which misses. -/
theorem findValue_case_counterexample :
    (fun k => if k = "APP_PORT" then some (GoValue.vInt 1) else none : Data) "APP_PORT"
      = some (GoValue.vInt 1) ∧
    goToLower "APP_PORT" = goToLower "APP_PORT" ∧
    findValue (fun k => if k = "APP_PORT" then some (GoValue.vInt 1) else none)
      ⟨"", "APP_PORT", "", ""⟩ = none := by
  refine ⟨by decide, rfl, by decide⟩

/-- C3 (amended): per-field resolution first looks up the lowercase form of
the declared env-key exactly in the merged namespace — insensitive to the
case of the declared tag but matching only a lowercase namespace key — and
uses a hit; only when no env-key is declared or the lookup misses does it
look up the config-key verbatim; this env-over-config precedence holds for
every merged namespace, independently of how sources were merged into it. -/
theorem findValue_env_precedence (data : Data) (cfg : fieldConfig) :
    (∀ v, cfg.envKey ≠ "" → data (goToLower cfg.envKey) = some v →
      findValue data cfg = some v) ∧
    ((cfg.envKey = "" ∨ data (goToLower cfg.envKey) = none) →
      findValue data cfg = (if cfg.cfgKey ≠ "" then data cfg.cfgKey else none)) ∧
    (∀ e2 : String, goToLower cfg.envKey = goToLower e2 →
      findValue data cfg = findValue data ⟨cfg.cfgKey, e2, cfg.validate, cfg.defaultValue⟩) := by
  refine ⟨?_, ?_, ?_⟩
  · intro v he hv
    simp [findValue, he, hv]
  · intro h
    rcases h with he | hd
    · simp [findValue, he]
    · by_cases he : cfg.envKey = "" <;> simp [findValue, he, hd]
  · intro e2 hlow
    by_cases he : cfg.envKey = ""
    · have he2 : e2 = "" := by
        rw [← goToLower_eq_empty, ← hlow, goToLower_eq_empty]
        exact he
      simp [findValue, he, he2]
    · have he2 : ¬ e2 = "" := by
        intro hc
        apply he
        rw [← goToLower_eq_empty, hlow, goToLower_eq_empty]
        exact hc
      simp [findValue, he, he2, hlow]

/-- Witness for C3 (amended): with both "app_port" and "port" present in the
merged namespace and tags env "APP_PORT" / cfg "port", the env hit wins. -/
theorem findValue_env_precedence_witness :
    findValue (fun k => if k = "app_port" then some (GoValue.vInt 8080)
        else if k = "port" then some (GoValue.vInt 3000) else none)
      ⟨"port", "APP_PORT", "", ""⟩ = some (GoValue.vInt 8080) :=
  (findValue_env_precedence _ _).1 (GoValue.vInt 8080) (by decide) (by decide)

/-- Decimal rendering of a float64 value under Go fmt %v, modelled as the
exact decimal expansion of the rational (Go prints the shortest round-trip
decimal and switches to exponent form at extreme magnitudes; those formatting
details are abstracted — no statement proved here inspects a formatted
float). -/
def goSprintFloat (q : Rat) : String :=
  if q.den = 1 then toString q.num
  else
    match (List.range 400).find? (fun e => decide (q.den ∣ 10 ^ (e + 1))) with
    | some e =>
      let scaled : Int := q.num * Int.ofNat (10 ^ (e + 1)) / Int.ofNat q.den
      let str := toString scaled.natAbs
      let padded :=
        if str.length ≤ e + 1 then
          String.mk (List.replicate (e + 2 - str.length) '0') ++ str
        else str
      let n := padded.length
      (if q.num < 0 then "-" else "") ++
        (padded.take (n - (e + 1))) ++ "." ++ (padded.drop (n - (e + 1)))
    | none => toString q.num ++ "/" ++ toString q.den

/-- Model of `fmt.Sprintf("%v", value)` on the scalar values the library
carries. -/
def goSprintV : GoValue → String
  | .vBool b => if b then "true" else "false"
  | .vInt i => toString i
  | .vFloat q => goSprintFloat q
  | .vStr s => s

/-- A validation rule: value and parameter to an error message, or nil. -/
abbrev ValidatorFunc := GoValue → String → Option String

/-- The Loader's validator registry (`map[string]ValidatorFunc`), read
through lookup. -/
abbrev ValidatorMap := String → Option ValidatorFunc

/-- Built-in `required`: fails when the stringified value is empty.  (Go also
fails on a nil interface value; nil never reaches a validator in this
embedding because validation only runs when resolution produced a value.) -/
def requiredValidator : ValidatorFunc := fun value _ =>
  if goSprintV value = "" then some "field is required" else none

/-- Built-in `url`, delegating to net/url (an external collaborator):
url.Parse accepts almost every string; the rejection condition is modelled as
the presence of an ASCII control character (rarer failure modes such as
malformed percent-escapes are not modelled; no claim depends on this rule). -/
def urlValidator : ValidatorFunc := fun value _ =>
  if (goSprintV value).data.any (fun c => c.toNat < 32) then
    some "invalid URL format"
  else none

/-- Characters allowed in the local part of the built-in email pattern. -/
def isLocalChar (c : Char) : Bool :=
  c.isAlphanum || c = '.' || c = '_' || c = '%' || c = '+' || c = '-'

/-- Characters allowed in the domain part of the built-in email pattern. -/
def isDomainChar (c : Char) : Bool :=
  c.isAlphanum || c = '.' || c = '-'

/-- Split a character list at the last occurrence of ch, if any. -/
def splitAtLast (ch : Char) : List Char → Option (List Char × List Char)
  | [] => none
  | c :: rest =>
    match splitAtLast ch rest with
    | some (a, b) => some (c :: a, b)
    | none => if c = ch then some ([], rest) else none

/-- The email-shape regular expression of configflow.go,
`[a-zA-Z0-9._%+-]+@[a-zA-Z0-9.-]+[.][a-zA-Z]{2,}` anchored at both ends,
evaluated directly: a nonempty local part, one at-sign, a nonempty domain
part, a final dot, and a TLD of at least two letters (the TLD is letters
only, so the separating dot is necessarily the last dot of the string). -/
def emailMatch (s : String) : Bool :=
  match splitAtLast '@' s.data with
  | none => false
  | some (loc, rest) =>
    (!loc.isEmpty) && loc.all isLocalChar && (!loc.any (· = '@')) &&
    match splitAtLast '.' rest with
    | none => false
    | some (dom, tld) =>
      (!dom.isEmpty) && dom.all isDomainChar &&
      decide (2 ≤ tld.length) && tld.all (fun c => c.isAlpha)

/-- Built-in `email`: conservative email-shape check. -/
def emailValidator : ValidatorFunc := fun value _ =>
  if emailMatch (goSprintV value) then none else some "invalid email format"

/-- Whether a character is white space for `strings.TrimSpace` (ASCII white
space; the rare non-ASCII space code points of Unicode are abstracted and
never appear in this development). -/
def goIsSpace (c : Char) : Bool :=
  c.toNat = 9 || c.toNat = 10 || c.toNat = 11 || c.toNat = 12 || c.toNat = 13 || c.toNat = 32

/-- Model of `strings.TrimSpace`. -/
def goTrim (s : String) : String :=
  String.mk (((s.data.dropWhile goIsSpace).reverse.dropWhile goIsSpace).reverse)

/-- Splitting a character list at every occurrence of sep; the result always
has one more piece than there are separators (`strings.Split` semantics, so
splitting the empty string yields one empty piece). -/
def splitOnChar (sep : Char) : List Char → List (List Char)
  | [] => [[]]
  | c :: rest =>
    let r := splitOnChar sep rest
    if c = sep then [] :: r
    else
      match r with
      | [] => [[c]]
      | h :: t => (c :: h) :: t

/-- Model of `strings.Split` for the single-character separators the library
uses ("," and ":"). -/
def goSplit (s : String) (sep : Char) : List String :=
  (splitOnChar sep s.data).map String.mk

/-- Built-in `range:min,max` (configflow.go): the parameter must split on ","
into exactly two integer pieces (after TrimSpace); the stringified value must
parse as an integer lying in the inclusive interval. -/
def rangeValidator : ValidatorFunc := fun value param =>
  match goSplit param ',' with
  | [p1, p2] =>
    match goAtoi (goTrim p1), goAtoi (goTrim p2) with
    | some mn, some mx =>
      match goAtoi (goSprintV value) with
      | some val =>
        if val < mn ∨ val > mx then
          some ("value must be between " ++ toString mn ++ " and " ++ toString mx)
        else none
      | none => some "value must be an integer for range validation"
    | _, _ => some "range parameters must be integers"
  | _ => some "range validator requires min,max parameters"

/-- Built-in `min:N`. -/
def minValidator : ValidatorFunc := fun value param =>
  match goAtoi param with
  | none => some "min parameter must be an integer"
  | some minVal =>
    match goAtoi (goSprintV value) with
    | none => some "value must be an integer for min validation"
    | some val =>
      if val < minVal then some ("value must be at least " ++ toString minVal) else none

/-- Built-in `max:N`. -/
def maxValidator : ValidatorFunc := fun value param =>
  match goAtoi param with
  | none => some "max parameter must be an integer"
  | some maxVal =>
    match goAtoi (goSprintV value) with
    | none => some "value must be an integer for max validation"
    | some val =>
      if val > maxVal then some ("value must be at most " ++ toString maxVal) else none

/-- The built-in validator table seeded into every new Loader. -/
def getBuiltinValidators : ValidatorMap := fun name =>
  match name with
  | "required" => some requiredValidator
  | "url" => some urlValidator
  | "range" => some rangeValidator
  | "email" => some emailValidator
  | "min" => some minValidator
  | "max" => some maxValidator
  | _ => none

/-- `strings.SplitN(rule, ":", 2)`: the rule name and the parameter (empty
when no colon is present). -/
def splitRule (rule : String) : String × String :=
  match goSplit rule ':' with
  | [] => (rule, "")
  | [a] => (a, "")
  | a :: rest => (a, String.intercalate ":" rest)

/-- The clause loop of `Loader.validateField` (configflow.go): clauses in
order; TrimSpace each; split name from parameter; unregistered names are
skipped; the first failing registered rule yields the ValidationError (whose
Rule field is the whole trimmed clause). -/
def validateClauses (vs : ValidatorMap) (fieldName : String) (value : GoValue) :
    List String → Option ValidationError
  | [] => none
  | c :: rest =>
    let rule := goTrim c
    let rn := splitRule rule
    match vs rn.1 with
    | none => validateClauses vs fieldName value rest
    | some validator =>
      match validator value rn.2 with
      | some msg => some ⟨fieldName, value, rule, msg⟩
      | none => validateClauses vs fieldName value rest

/-- Model of `Loader.validateField`: split the rules string on commas and run
the clause loop. -/
def validateField (vs : ValidatorMap) (fieldName : String) (value : GoValue)
    (rules : String) : Option ValidationError :=
  validateClauses vs fieldName value (goSplit rules ',')

/-- C8: a comma-separated clause whose rule name is not registered in the
validator mapping is silently skipped: validateField behaves exactly as if
the clause were absent — no error from the clause, the remaining clauses
still evaluated, the bind unaffected by the unknown name. -/
theorem validateField_unknown_rule_skipped (vs : ValidatorMap) (fieldName : String)
    (value : GoValue) (rules : String) (pre post : List String) (c : String)
    (hsplit : goSplit rules ',' = pre ++ c :: post)
    (hunknown : vs (splitRule (goTrim c)).1 = none) :
    validateField vs fieldName value rules = validateClauses vs fieldName value (pre ++ post) := by
  rw [validateField, hsplit]
  clear hsplit
  induction pre with
  | nil =>
    simp only [List.nil_append]
    simp [validateClauses, hunknown]
  | cons a tl ih =>
    simp only [List.cons_append]
    cases hv : vs (splitRule (goTrim a)).1 with
    | none => simp [validateClauses, hv, ih]
    | some validator =>
      cases hr : validator value (splitRule (goTrim a)).2 with
      | some msg => simp [validateClauses, hv, hr]
      | none => simp [validateClauses, hv, hr, ih]

/-- Witness for C8: the unknown clause "bogus" is skipped and the following
"required" clause still runs (and fails on the empty string). -/
theorem validateField_unknown_rule_skipped_witness :
    validateField getBuiltinValidators "Email" (GoValue.vStr "") "bogus,required" =
      validateClauses getBuiltinValidators "Email" (GoValue.vStr "") ["required"] ∧
    validateClauses getBuiltinValidators "Email" (GoValue.vStr "") ["required"] =
      some ⟨"Email", GoValue.vStr "", "required", "field is required"⟩ :=
  ⟨validateField_unknown_rule_skipped getBuiltinValidators "Email" (GoValue.vStr "")
      "bogus,required" [] ["required"] "bogus" (by decide) rfl,
   by decide⟩

/-- C9: the built-in range validator accepts exactly the values whose
stringification parses as an integer within the inclusive [min, max] bounds,
and errors when the value is not integer-parseable or the parameter does not
decompose into two integers. -/
theorem rangeValidator_correct :
    getBuiltinValidators "range" = some rangeValidator ∧
    (∀ (v : GoValue) (param p1 p2 : String) (mn mx : Int),
      goSplit param ',' = [p1, p2] →
      goAtoi (goTrim p1) = some mn → goAtoi (goTrim p2) = some mx →
      (rangeValidator v param = none ↔
        ∃ n : Int, goAtoi (goSprintV v) = some n ∧ mn ≤ n ∧ n ≤ mx)) ∧
    (∀ (v : GoValue) (param p1 p2 : String), goSplit param ',' = [p1, p2] →
      (goAtoi (goTrim p1) = none ∨ goAtoi (goTrim p2) = none) →
      rangeValidator v param ≠ none) ∧
    (∀ (v : GoValue) (param : String), (∀ p1 p2, goSplit param ',' ≠ [p1, p2]) →
      rangeValidator v param ≠ none) := by
  refine ⟨rfl, ?_, ?_, ?_⟩
  · intro v param p1 p2 mn mx hsplit h1 h2
    simp only [rangeValidator, hsplit, h1, h2]
    cases h3 : goAtoi (goSprintV v) with
    | none => simp
    | some n =>
      by_cases hc : n < mn ∨ n > mx
      · simp only [hc, if_true]
        constructor
        · intro h
          cases h
        · intro h
          rcases h with ⟨m, hm, hlo, hhi⟩
          have hnm : n = m := Option.some.inj hm
          exfalso
          omega
      · simp only [hc, if_false]
        constructor
        · intro _
          refine ⟨n, rfl, ?_, ?_⟩ <;> omega
        · intro _
          trivial
  · intro v param p1 p2 hsplit hbad
    rcases hbad with hb | hb
    · simp only [rangeValidator, hsplit, hb]
      cases goAtoi (goTrim p2) <;> simp
    · simp only [rangeValidator, hsplit, hb]
      cases goAtoi (goTrim p1) <;> simp
  · intro v param hshape
    cases hl : goSplit param ',' with
    | nil => simp [rangeValidator, hl]
    | cons a tl =>
      cases tl with
      | nil => simp [rangeValidator, hl]
      | cons b tl2 =>
        cases tl2 with
        | nil => exact absurd hl (hshape a b)
        | cons c tl3 => simp [rangeValidator, hl]

/-- Witness for C9: range:1000,9999 accepts 1000 and 9999 and rejects 500 and
10000. -/
theorem rangeValidator_correct_witness :
    rangeValidator (GoValue.vInt 1000) "1000,9999" = none ∧
    rangeValidator (GoValue.vInt 9999) "1000,9999" = none ∧
    rangeValidator (GoValue.vInt 500) "1000,9999" ≠ none ∧
    rangeValidator (GoValue.vInt 10000) "1000,9999" ≠ none := by
  refine ⟨?_, ?_, ?_, ?_⟩
  · exact (rangeValidator_correct.2.1 (GoValue.vInt 1000) "1000,9999" "1000" "9999"
      1000 9999 (by decide) (by decide) (by decide)).mpr ⟨1000, by decide, by decide, by decide⟩
  · exact (rangeValidator_correct.2.1 (GoValue.vInt 9999) "1000,9999" "1000" "9999"
      1000 9999 (by decide) (by decide) (by decide)).mpr ⟨9999, by decide, by decide, by decide⟩
  · intro h
    rcases (rangeValidator_correct.2.1 (GoValue.vInt 500) "1000,9999" "1000" "9999"
      1000 9999 (by decide) (by decide) (by decide)).mp h with ⟨n, hn, hlo, hhi⟩
    have hgo : goAtoi (goSprintV (GoValue.vInt 500)) = some (500 : Int) := by decide
    rw [hgo] at hn
    have := Option.some.inj hn
    omega
  · intro h
    rcases (rangeValidator_correct.2.1 (GoValue.vInt 10000) "1000,9999" "1000" "9999"
      1000 9999 (by decide) (by decide) (by decide)).mp h with ⟨n, hn, hlo, hhi⟩
    have hgo : goAtoi (goSprintV (GoValue.vInt 10000)) = some (10000 : Int) := by decide
    rw [hgo] at hn
    have := Option.some.inj hn
    omega

/-- The reflect kinds handled by the binder's setValue switch: string, the
signed integer kinds, bool, the float kinds, and everything else. -/
inductive GoKind where
  | kString
  | kInt
  | kBool
  | kFloat
  | kOther
  deriving DecidableEq, Repr

/-- The typed content of a target struct field.  kOther fields are opaque:
the library never modifies them (the setValue switch has no case for their
kind). -/
inductive FieldVal where
  | fvString : String → FieldVal
  | fvInt : Int → FieldVal
  | fvBool : Bool → FieldVal
  | fvFloat : Rat → FieldVal
  | fvOther : FieldVal
  deriving DecidableEq, Repr

/-- The zero value of each field kind. -/
def zeroVal : GoKind → FieldVal
  | .kString => .fvString ""
  | .kInt => .fvInt 0
  | .kBool => .fvBool false
  | .kFloat => .fvFloat 0
  | .kOther => .fvOther

/-- A declared struct field as the binder sees it through reflection: name,
assignability, kind, and the four annotation strings. -/
structure FieldSpec where
  name : String
  canSet : Bool
  kind : GoKind
  cfgTag : String
  envTag : String
  validateTag : String
  defaultTag : String
  deriving DecidableEq, Repr

/-- Model of `Loader.getFieldConfig`: read the four tags. -/
def getFieldConfig (f : FieldSpec) : fieldConfig :=
  ⟨f.cfgTag, f.envTag, f.validateTag, f.defaultTag⟩

/-- strconv.ParseBool with Go's error message. -/
def goParseBoolE (s : String) : Except String Bool :=
  match goParseBool s with
  | some b => .ok b
  | none => .error ("strconv.ParseBool: parsing " ++ goQuote s ++ ": invalid syntax")

/-- strconv.ParseFloat with Go's error message (the syntax and range error
messages are collapsed into one; no statement proved here inspects these
texts). -/
def goParseFloatE (s : String) : Except String Rat :=
  match goParseFloat s with
  | some q => .ok q
  | none => .error ("strconv.ParseFloat: parsing " ++ goQuote s ++ ": invalid syntax")

/-- Model of `Loader.setValue` (configflow.go): stringify the value with %v
and re-parse it in the field's native format; string fields take the
stringification directly; kinds outside the four supported categories are
silently left unchanged. -/
def setValue (kind : GoKind) (cur : FieldVal) (value : GoValue) : Except String FieldVal :=
  match kind with
  | .kString => .ok (.fvString (goSprintV value))
  | .kInt =>
    match goParseInt64E (goSprintV value) with
    | .ok i => .ok (.fvInt i)
    | .error e => .error e
  | .kBool =>
    match goParseBoolE (goSprintV value) with
    | .ok b => .ok (.fvBool b)
    | .error e => .error e
  | .kFloat =>
    match goParseFloatE (goSprintV value) with
    | .ok q => .ok (.fvFloat q)
    | .error e => .error e
  | .kOther => .ok cur

/-- One iteration of the field loop of `Loader.applyToStruct`: skip fields
that cannot be set; resolve a value; when one is present, validate it (when a
validate tag exists) and coerce-assign it; otherwise loose-parse and assign
the declared default, if any; otherwise leave the field untouched. -/
def bindField (vs : ValidatorMap) (data : Data) (f : FieldSpec) (cur : FieldVal) :
    Except GoErr FieldVal :=
  if f.canSet = false then .ok cur
  else
    let cfg := getFieldConfig f
    match findValue data cfg with
    | some value =>
      match (if cfg.validate ≠ "" then validateField vs f.name value cfg.validate else none) with
      | some ve => .error (.valErr ve)
      | none =>
        match setValue f.kind cur value with
        | .ok v2 => .ok v2
        | .error e => .error (.plain ("failed to set field " ++ f.name ++ ": " ++ e))
    | none =>
      if cfg.defaultValue ≠ "" then
        match setValue f.kind cur (parseValue cfg.defaultValue) with
        | .ok v2 => .ok v2
        | .error e => .error (.plain ("failed to set default for field " ++ f.name ++ ": " ++ e))
      else .ok cur

/-- The field loop of `Loader.applyToStruct` over (field, current value)
pairs in declaration order: the first error aborts, leaving the failing field
and every later field at its current value while earlier fields keep their
newly assigned values (no rollback). -/
def applyFields (vs : ValidatorMap) (data : Data) :
    List (FieldSpec × FieldVal) → List (FieldSpec × FieldVal) × Option GoErr
  | [] => ([], none)
  | (f, cur) :: rest =>
    match bindField vs data f cur with
    | .error e => ((f, cur) :: rest, some e)
    | .ok v2 =>
      let r := applyFields vs data rest
      ((f, v2) :: r.1, r.2)

/-- The binding target: a non-nil pointer to a struct carrying its declared
fields with their current values, or anything else (nil pointer, non-pointer,
pointer to a non-struct) — reflect reports all of the latter as failing the
pointer-to-struct check, and no assignment can reach them. -/
inductive Target where
  | invalid : Target
  | structPtr : List (FieldSpec × FieldVal) → Target
  deriving DecidableEq, Repr

/-- Model of `Loader.applyToStruct`: reject targets that are not non-nil
pointers to structs with the fixed error; otherwise run the field loop over
the declared fields. -/
def applyToStruct (vs : ValidatorMap) (config : Target) (data : Data) :
    Target × Option GoErr :=
  match config with
  | .invalid => (config, some (.plain "config must be a pointer to struct"))
  | .structPtr fields =>
    let r := applyFields vs data fields
    (.structPtr r.1, r.2)

/-- The Loader: registered sources in registration order, the validator
registry, and the (inert) strict flag. -/
structure Loader where
  sources : List Source
  validators : ValidatorMap
  strict : Bool

/-- Model of `Loader.Load`: merge every registered source in registration
order — a source failure aborts with the wrapped error before the target is
even inspected — then bind the merged namespace onto the target struct. -/
def Loader.Load (l : Loader) (config : Target) : Target × Option GoErr :=
  match loadMerge l.sources with
  | .error e => (config, some e)
  | .ok merged => applyToStruct l.validators config merged

theorem getFieldConfig_defaultValue (f : FieldSpec) :
    (getFieldConfig f).defaultValue = f.defaultTag := rfl

theorem getFieldConfig_validate (f : FieldSpec) :
    (getFieldConfig f).validate = f.validateTag := rfl

theorem bindField_unresolved (vs : ValidatorMap) (data : Data) (f : FieldSpec)
    (cur : FieldVal) (hfind : findValue data (getFieldConfig f) = none)
    (hdef : f.defaultTag = "") : bindField vs data f cur = .ok cur := by
  by_cases hcs : f.canSet = false <;>
    simp [bindField, hcs, hfind, getFieldConfig_defaultValue, hdef]

theorem applyFields_all_unresolved (vs : ValidatorMap) (data : Data) :
    ∀ fields : List (FieldSpec × FieldVal),
      (∀ p ∈ fields, findValue data (getFieldConfig p.1) = none ∧ p.1.defaultTag = "") →
      applyFields vs data fields = (fields, none) := by
  intro fields
  induction fields with
  | nil => intro _; rfl
  | cons p tl ih =>
    intro h
    obtain ⟨f, cur⟩ := p
    have hf := h (f, cur) (by simp)
    have hbind : bindField vs data f cur = .ok cur :=
      bindField_unresolved vs data f cur hf.1 hf.2
    have htl := ih (fun q hq => h q (List.mem_cons_of_mem _ hq))
    simp [applyFields, hbind, htl]

/-- C2: a field for which value resolution finds nothing (neither env-key nor
config-key hits the merged namespace) and whose default tag is empty is left
at its kind's zero value and contributes no error, whatever validate tag it
declares; a Load over a target all of whose fields are such leaves the target
unchanged (all fields still zero) and returns no error. -/
theorem unresolved_field_left_zero (vs : ValidatorMap) (data : Data) :
    (∀ f : FieldSpec, findValue data (getFieldConfig f) = none → f.defaultTag = "" →
      bindField vs data f (zeroVal f.kind) = .ok (zeroVal f.kind)) ∧
    (∀ (l : Loader) (fields : List (FieldSpec × FieldVal)),
      loadMerge l.sources = .ok data → l.validators = vs →
      (∀ p ∈ fields, findValue data (getFieldConfig p.1) = none ∧ p.1.defaultTag = ""
        ∧ p.2 = zeroVal p.1.kind) →
      l.Load (.structPtr fields) = (.structPtr fields, none)) := by
  constructor
  · intro f hfind hdef
    exact bindField_unresolved vs data f (zeroVal f.kind) hfind hdef
  · intro l fields hmerge hvs h
    have happ := applyFields_all_unresolved vs data fields
      (fun p hp => ⟨(h p hp).1, (h p hp).2.1⟩)
    simp [Loader.Load, hmerge, hvs, applyToStruct, happ]

/-- Witness for C2: an int field with cfg tag "port", a validate tag, no
default and an empty namespace stays at zero through bindField and through a
whole Load. -/
theorem unresolved_field_left_zero_witness :
    bindField getBuiltinValidators emptyData
      ⟨"Port", true, .kInt, "port", "", "range:1000,9999", ""⟩ (zeroVal .kInt)
      = .ok (zeroVal .kInt) ∧
    Loader.Load ⟨[], getBuiltinValidators, false⟩
      (.structPtr [(⟨"Port", true, .kInt, "port", "", "range:1000,9999", ""⟩, zeroVal .kInt)])
      = (.structPtr [(⟨"Port", true, .kInt, "port", "", "range:1000,9999", ""⟩, zeroVal .kInt)],
         none) :=
  ⟨(unresolved_field_left_zero getBuiltinValidators emptyData).1
      ⟨"Port", true, .kInt, "port", "", "range:1000,9999", ""⟩ (by decide) rfl,
   (unresolved_field_left_zero getBuiltinValidators emptyData).2
      ⟨[], getBuiltinValidators, false⟩ _ rfl rfl
      (by
        intro p hp
        have hp' : p = (⟨"Port", true, .kInt, "port", "", "range:1000,9999", ""⟩,
            zeroVal .kInt) := by simpa using hp
        subst hp'
        exact ⟨by decide, rfl, rfl⟩)⟩

theorem loadMergeAux_error : ∀ (pre : List Source) (flats : List FlatMap)
    (s : Source) (rest : List Source) (acc : Data) (e : String),
    pre.map Source.load = flats.map Except.ok →
    s.load = .error e →
    loadMergeAux (pre ++ s :: rest) acc =
      .error (.plain ("failed to load from source: " ++ e)) := by
  intro pre
  induction pre with
  | nil =>
    intro flats s rest acc e _ hs
    simp [loadMergeAux, hs]
  | cons p tl ih =>
    intro flats s rest acc e h hs
    cases flats with
    | nil => simp at h
    | cons f fs =>
      simp only [List.map_cons, List.cons.injEq] at h
      simp [loadMergeAux, List.cons_append, h.1, ih fs s rest _ e h.2 hs]

/-- C4: every error during Load aborts the whole call immediately with that
single error.  A failing source (after any successfully loading predecessors)
aborts before binding and leaves the target untouched; during binding, the
first failing field returns exactly its error, fields before it keep the
values just assigned (no rollback), and the failing field and every later
field are left untouched. -/
theorem load_aborts_on_first_error :
    (∀ (l : Loader) (config : Target) (pre : List Source) (s : Source)
        (rest : List Source) (flats : List FlatMap) (e : String),
      l.sources = pre ++ s :: rest →
      pre.map Source.load = flats.map Except.ok →
      s.load = .error e →
      l.Load config = (config, some (.plain ("failed to load from source: " ++ e)))) ∧
    (∀ (vs : ValidatorMap) (data : Data) (pre done : List (FieldSpec × FieldVal))
        (f : FieldSpec) (cur : FieldVal) (post : List (FieldSpec × FieldVal)) (e : GoErr),
      applyFields vs data pre = (done, none) →
      bindField vs data f cur = .error e →
      applyFields vs data (pre ++ (f, cur) :: post) = (done ++ (f, cur) :: post, some e)) := by
  constructor
  · intro l config pre s rest flats e hsrc hpre hs
    rw [Loader.Load, hsrc, loadMerge, loadMergeAux_error pre flats s rest emptyData e hpre hs]
  · intro vs data pre
    induction pre with
    | nil =>
      intro done f cur post e hpre hbind
      have hdone : done = [] := by
        have := congrArg Prod.fst hpre
        simpa [applyFields] using this.symm
      subst hdone
      simp [applyFields, hbind]
    | cons p tl ih =>
      intro done f cur post e hpre hbind
      obtain ⟨g, c⟩ := p
      cases hb : bindField vs data g c with
      | error e2 =>
        rw [applyFields, hb] at hpre
        have : (some e2 : Option GoErr) = none := congrArg Prod.snd hpre
        cases this
      | ok v2 =>
        rw [applyFields, hb] at hpre
        have h1 : done = (g, v2) :: (applyFields vs data tl).1 := (congrArg Prod.fst hpre).symm
        have h2 : (applyFields vs data tl).2 = none := congrArg Prod.snd hpre
        have htl : applyFields vs data tl = ((applyFields vs data tl).1, none) := by
          rw [← h2]
        have := ih (applyFields vs data tl).1 f cur post e htl hbind
        rw [List.cons_append, applyFields, hb, this, h1]
        simp

/-- Witness for C4: a good source then a failing one aborts Load with the
wrapped source error; a string field that binds "App" followed by an int
field fed "abc" aborts the field loop with the coercion error, keeping the
first field's assigned value and leaving the rest untouched. -/
theorem load_aborts_on_first_error_witness :
    Loader.Load ⟨[⟨.ok [("k", GoValue.vInt 1)], 0⟩, ⟨.error "boom", 2⟩],
        getBuiltinValidators, false⟩ (.structPtr [])
      = (.structPtr [], some (.plain "failed to load from source: boom")) ∧
    applyFields getBuiltinValidators
      (fun k => if k = "name" then some (GoValue.vStr "App")
        else if k = "port" then some (GoValue.vStr "abc") else none)
      [(⟨"Name", true, .kString, "name", "", "", ""⟩, zeroVal .kString),
       (⟨"Port", true, .kInt, "port", "", "", ""⟩, zeroVal .kInt),
       (⟨"Debug", true, .kBool, "debug", "", "", ""⟩, zeroVal .kBool)]
      = ([(⟨"Name", true, .kString, "name", "", "", ""⟩, .fvString "App"),
          (⟨"Port", true, .kInt, "port", "", "", ""⟩, zeroVal .kInt),
          (⟨"Debug", true, .kBool, "debug", "", "", ""⟩, zeroVal .kBool)],
         some (.plain "failed to set field Port: strconv.ParseInt: parsing \"abc\": invalid syntax")) :=
  ⟨load_aborts_on_first_error.1 _ (.structPtr []) [⟨.ok [("k", GoValue.vInt 1)], 0⟩]
      ⟨.error "boom", 2⟩ [] [[("k", GoValue.vInt 1)]] "boom" rfl rfl rfl,
   load_aborts_on_first_error.2 getBuiltinValidators
      (fun k => if k = "name" then some (GoValue.vStr "App")
        else if k = "port" then some (GoValue.vStr "abc") else none)
      [(⟨"Name", true, .kString, "name", "", "", ""⟩, zeroVal .kString)]
      [(⟨"Name", true, .kString, "name", "", "", ""⟩, .fvString "App")]
      ⟨"Port", true, .kInt, "port", "", "", ""⟩ (zeroVal .kInt)
      [(⟨"Debug", true, .kBool, "debug", "", "", ""⟩, zeroVal .kBool)]
      (.plain "failed to set field Port: strconv.ParseInt: parsing \"abc\": invalid syntax")
      rfl rfl⟩

/-- C10: a target that is not a non-nil pointer to a struct makes Load return
exactly the error "config must be a pointer to struct" with nothing assigned
— but only after every source has been loaded and merged, so a failing source
returns its wrapped load error instead of the pointer-type error. -/
theorem load_invalid_target :
    (∀ (l : Loader) (flats : List FlatMap),
      l.sources.map Source.load = flats.map Except.ok →
      l.Load .invalid = (.invalid, some (.plain "config must be a pointer to struct"))) ∧
    (∀ (l : Loader) (pre : List Source) (s : Source) (rest : List Source)
        (flats : List FlatMap) (e : String),
      l.sources = pre ++ s :: rest →
      pre.map Source.load = flats.map Except.ok →
      s.load = .error e →
      l.Load .invalid = (.invalid, some (.plain ("failed to load from source: " ++ e)))) := by
  constructor
  · intro l flats h
    rw [Loader.Load, loadMerge, loadMergeAux_ok l.sources flats emptyData h]
    rfl
  · intro l pre s rest flats e hsrc hpre hs
    rw [Loader.Load, hsrc, loadMerge, loadMergeAux_error pre flats s rest emptyData e hpre hs]

/-- Witness for C10: with one healthy source the invalid target produces the
pointer-type error; with a failing source the wrapped load error wins. -/
theorem load_invalid_target_witness :
    Loader.Load ⟨[⟨.ok [("k", GoValue.vInt 1)], 0⟩], getBuiltinValidators, false⟩ .invalid
      = (.invalid, some (.plain "config must be a pointer to struct")) ∧
    Loader.Load ⟨[⟨.error "no perm", 1⟩], getBuiltinValidators, false⟩ .invalid
      = (.invalid, some (.plain "failed to load from source: no perm")) :=
  ⟨load_invalid_target.1 _ [[("k", GoValue.vInt 1)]] rfl,
   load_invalid_target.2 _ [] ⟨.error "no perm", 1⟩ [] [] "no perm" rfl rfl rfl⟩

end Configflow
